import Mathlib

/-!
Verification of the sort/selection/rendering logic of the `DataTable` and
`InputField` components in `src/React-comp1/src/App.tsx`.

Modelling conventions:
* Rows are an arbitrary type `T`; a field lookup `getF : T → κ → α` models the
  JavaScript access `row[key]`, with `κ` the type of field keys and `α` the
  type of field values.
* The JavaScript relational operators `<` and `>` on field values are modelled
  by two Boolean functions `lt gt : α → α → Bool`.  Generic theorems take them
  as parameters; concrete instances use `jvalLt` below, which models the
  abstract relational comparison on integer numbers, `NaN` and strings.
* `Array.prototype.sort` is required by the ECMAScript specification to be
  stable; it is modelled by the stable insertion sort `stableSort`, which
  places `a` before `b` exactly when `comparator a b ≤ 0` and otherwise keeps
  the input order.
* React component state is modelled explicitly: `TableState` carries the props
  (`data`, `columns`, `loading`, `selectable`) together with the two `useState`
  cells (`sortConfig`, `selectedRows`), and `step` interprets the user events
  (header click, checkbox toggle) plus a change of the `data` prop.
-/

/-- Sort direction, `"asc" | "desc"` in `sortConfig` (App.tsx line 153). -/
inductive Direction where
  | asc
  | desc
deriving DecidableEq

/-- Direction toggling `prev.direction === "asc" ? "desc" : "asc"` (App.tsx line 178). -/
def Direction.flip : Direction → Direction
  | .asc => .desc
  | .desc => .asc

/-- The `sortConfig` state value when non-null: `{ key: keyof T; direction: "asc" | "desc" }`
(App.tsx lines 151-154). -/
structure SortConfig (κ : Type) where
  key : κ
  direction : Direction
deriving DecidableEq

/-- A column descriptor `Column<T>` (App.tsx lines 129-134). -/
structure Column (κ : Type) where
  key : String
  title : String
  dataIndex : κ
  sortable : Bool
deriving DecidableEq

/-- The comparator closure passed to `.sort` in `sortedData` (App.tsx lines 163-168):
`aVal < bVal` returns `-1`/`1` depending on direction, `aVal > bVal` returns `1`/`-1`,
otherwise `0`. -/
def sortCompare (lt gt : α → α → Bool) (direction : Direction) (aVal bVal : α) : Int :=
  if lt aVal bVal then (if direction = Direction.asc then -1 else 1)
  else if gt aVal bVal then (if direction = Direction.asc then 1 else -1)
  else 0

/-- Stable insertion of one element: `a` goes before the first element `b` with
`le a b = true`.  With `le a b = (comparator a b ≤ 0)` this realises the stable-sort
contract of `Array.prototype.sort`. -/
def insertRow (le : T → T → Bool) (a : T) : List T → List T
  | [] => [a]
  | b :: l => if le a b then a :: b :: l else b :: insertRow le a l

/-- Stable sort by repeated insertion; models the (specified-stable) `.sort` call on
the copy `[...data]` (App.tsx line 163). -/
def stableSort (le : T → T → Bool) : List T → List T
  | [] => []
  | a :: l => insertRow le a (stableSort le l)

/-- Boolean ordering predicate induced by the `sortedData` comparator for a given
sort configuration: row `a` may stay before row `b` iff the comparator is ≤ 0. -/
def rowLe (getF : T → κ → α) (lt gt : α → α → Bool) (cfg : SortConfig κ) (a b : T) : Bool :=
  decide (sortCompare lt gt cfg.direction (getF a cfg.key) (getF b cfg.key) ≤ 0)

/-- The `sortedData` memo (App.tsx lines 161-170): if `sortConfig` is null the data
itself, otherwise a stable sort of a copy of the data by the comparator. -/
def sortedData (getF : T → κ → α) (lt gt : α → α → Bool) (data : List T)
    (sortConfig : Option (SortConfig κ)) : List T :=
  match sortConfig with
  | none => data
  | some cfg => stableSort (rowLe getF lt gt cfg) data

/-- The `handleSort` updater (App.tsx lines 173-183): same key flips the direction,
otherwise (different key or null previous config) ascending on the clicked key. -/
def handleSort [DecidableEq κ] (key : κ) (prev : Option (SortConfig κ)) :
    Option (SortConfig κ) :=
  match prev with
  | some cfg =>
    if cfg.key = key then some ⟨key, cfg.direction.flip⟩
    else some ⟨key, Direction.asc⟩
  | none => some ⟨key, Direction.asc⟩

/-- The `toggleRow` handler (App.tsx lines 186-198).  The selection `Set` is modelled
as a duplicate-free list in insertion order; the second component is the list of
`onRowSelect` invocations performed (each entry the argument of one call), empty when
the optional callback is absent. -/
def toggleRow [DecidableEq ι] (rowId : T → ι) (data : List T) (hasOnRowSelect : Bool)
    (selectedRows : List ι) (id : ι) : List ι × List (List T) :=
  let newSelection :=
    if selectedRows.contains id then selectedRows.erase id else selectedRows ++ [id]
  (newSelection,
    if hasOnRowSelect then [data.filter (fun row => newSelection.contains (rowId row))]
    else [])

/-- Full state of one mounted `DataTable`: the props and the two `useState` cells. -/
structure TableState (T κ ι : Type) where
  data : List T
  columns : List (Column κ)
  loading : Bool
  selectable : Bool
  sortConfig : Option (SortConfig κ)
  selectedRows : List ι
deriving DecidableEq

/-- State at mount: `sortConfig` starts at `null` (App.tsx line 151) and the
selection set starts empty (App.tsx lines 156-158). -/
def initState (data : List T) (columns : List (Column κ)) (loading selectable : Bool) :
    TableState T κ ι :=
  ⟨data, columns, loading, selectable, none, []⟩

/-- Events a mounted table can undergo: clicking a column header, toggling a row
checkbox, and the caller replacing the `data` prop. -/
inductive TableEvent (T κ ι : Type) where
  | clickHeader (col : Column κ)
  | toggleRowBox (id : ι)
  | setData (data : List T)

/-- The populated table (with its headers and checkboxes) is rendered only when not
loading and the data is non-empty (App.tsx lines 201-216). -/
def isPopulated (s : TableState T κ ι) : Bool :=
  !s.loading && !(s.data.isEmpty)

/-- One interaction step.  A header click fires `col.sortable && handleSort(col.dataIndex)`
(App.tsx line 233) and only exists on the populated view; a checkbox toggle exists only
for rendered rows of the populated view when `selectable` (App.tsx lines 249-257);
`setData` is the caller changing the `data` prop. -/
def step [DecidableEq κ] [DecidableEq ι] (rowId : T → ι) (e : TableEvent T κ ι)
    (s : TableState T κ ι) : TableState T κ ι :=
  match e with
  | .clickHeader col =>
    if isPopulated s = true ∧ col ∈ s.columns then
      (if col.sortable then { s with sortConfig := handleSort col.dataIndex s.sortConfig }
       else s)
    else s
  | .toggleRowBox id =>
    if isPopulated s = true ∧ s.selectable = true ∧ id ∈ s.data.map rowId then
      { s with selectedRows := (toggleRow rowId s.data true s.selectedRows id).1 }
    else s
  | .setData d => { s with data := d }

/-- Runs a sequence of events from a state. -/
def runTable [DecidableEq κ] [DecidableEq ι] (rowId : T → ι) (s : TableState T κ ι)
    (evs : List (TableEvent T κ ι)) : TableState T κ ι :=
  evs.foldl (fun s e => step rowId e s) s

/-- Events generated by the user interacting with the rendered table (header clicks
and checkbox toggles), as opposed to the caller changing props. -/
def isUserEvent : TableEvent T κ ι → Bool
  | .setData _ => false
  | _ => true

/-- What `DataTable` renders: the early-returned loading placeholder, the
early-returned empty placeholder, or the populated table over `sortedData`
(App.tsx lines 200-269). -/
inductive TableView (T : Type) where
  | loadingView (message : String)
  | emptyView (message : String)
  | populated (rows : List T)
deriving DecidableEq

/-- The render function of `DataTable` (App.tsx lines 200-269): loading check first,
then the empty check, else the table whose body maps over `sortedData`. -/
def renderView (getF : T → κ → α) (lt gt : α → α → Bool) (s : TableState T κ ι) :
    TableView T :=
  if s.loading then TableView.loadingView "Loading data..."
  else if s.data.isEmpty then TableView.emptyView "No data available"
  else TableView.populated (sortedData getF lt gt s.data s.sortConfig)

/-- JavaScript field values as used by the table examples: integer numbers, `NaN`,
and strings.  (JS numbers are doubles; the examples only need integers.) -/
inductive JVal where
  | num (n : Int)
  | nan
  | str (s : String)
deriving DecidableEq

/-- Lexicographic comparison of character lists, code point by code point; models
the ECMAScript ordering of strings (code-unit order; identical for these examples). -/
def charListLt : List Char → List Char → Bool
  | [], [] => false
  | [], _ :: _ => true
  | _ :: _, [] => false
  | a :: as, b :: bs => if a < b then true else if b < a then false else charListLt as bs

/-- The ECMAScript `<` on two strings. -/
def jsStrLt (a b : String) : Bool := charListLt a.data b.data

/-- ToNumber on a string: the trimmed empty string is `0`, an (optionally signed)
decimal integer literal is its value, anything else is `NaN`. -/
def jsStringToNumber (s : String) : JVal :=
  let t := s.trim
  if t = "" then JVal.num 0
  else
    match t.toInt? with
    | some n => JVal.num n
    | none => JVal.nan

/-- ToNumber on a field value (strings are converted, numbers and NaN unchanged). -/
def toNumberVal : JVal → JVal
  | .str s => jsStringToNumber s
  | v => v

/-- The JS `<` operator on field values (abstract relational comparison): two strings
compare lexicographically; otherwise both sides are converted to numbers and any
`NaN` makes the comparison false. -/
def jvalLt (a b : JVal) : Bool :=
  match a, b with
  | .str x, .str y => jsStrLt x y
  | _, _ =>
    match toNumberVal a, toNumberVal b with
    | .num x, .num y => decide (x < y)
    | _, _ => false

/-- The JS `>` operator: `a > b` performs the abstract relational comparison `b < a`. -/
def jvalGt (a b : JVal) : Bool := jvalLt b a

/-- Field keys of the sample row type used in the concrete scenarios. -/
inductive SField where
  | id
  | name
deriving DecidableEq

/-- The sample row shape `{id, name}` from the spec scenario. -/
structure SampleRow where
  id : Int
  name : String
deriving DecidableEq

/-- Field access `row[key]` for sample rows. -/
def sampleGet (r : SampleRow) : SField → JVal
  | .id => JVal.num r.id
  | .name => JVal.str r.name

/-- Identifier of a sample row (the `id` prop used for keys and selection). -/
def sampleId (r : SampleRow) : Int := r.id

/-- A sortable column rendering the `name` field. -/
def nameColumn : Column SField := ⟨"name", "Name", SField.name, true⟩

/-- The spec scenario rows `[{id:1,name:"B"}, {id:2,name:"A"}]`. -/
def sampleRows : List SampleRow := [⟨1, "B"⟩, ⟨2, "A"⟩]

/-- Mounted table for the C1 scenario. -/
def c1s0 : TableState SampleRow SField Int := initState sampleRows [nameColumn] false false

/-- State after the first click on the `name` header. -/
def c1s1 : TableState SampleRow SField Int := step sampleId (.clickHeader nameColumn) c1s0

/-- State after the second click on the `name` header. -/
def c1s2 : TableState SampleRow SField Int := step sampleId (.clickHeader nameColumn) c1s1

/-- C1: for rows `[{id:1,name:"B"}, {id:2,name:"A"}]` with a sortable `name` column,
one header click sets the sort to (name, ascending) and displays ids `[2,1]`; a second
click sets (name, descending) and displays `[1,2]`. -/
theorem c1_click_sort_scenario :
    c1s1.sortConfig = some ⟨SField.name, Direction.asc⟩
  ∧ renderView sampleGet jvalLt jvalGt c1s1
      = TableView.populated [⟨2, "A"⟩, ⟨1, "B"⟩]
  ∧ c1s2.sortConfig = some ⟨SField.name, Direction.desc⟩
  ∧ renderView sampleGet jvalLt jvalGt c1s2
      = TableView.populated [⟨1, "B"⟩, ⟨2, "A"⟩] := by
  refine ⟨by decide, by decide, by decide, by decide⟩

/-- A non-sortable column rendering the `id` field. -/
def idColumn : Column SField := ⟨"id", "Id", SField.id, false⟩

/-- Mounted table with a sortable and a non-sortable column. -/
def c2s0 : TableState SampleRow SField Int :=
  initState sampleRows [nameColumn, idColumn] false false

/-- C2: a header click on a rendered column steps the sort state as follows: on the
currently-active sortable column it flips the direction on that same column; on a
sortable column that is not the active one (in particular when no sort is active) it
sets that column with direction ascending; on a non-sortable column it leaves the
whole component state unchanged. -/
theorem c2_header_click_transitions [DecidableEq κ] [DecidableEq ι] (rowId : T → ι)
    (s : TableState T κ ι) (col : Column κ)
    (hpop : isPopulated s = true) (hmem : col ∈ s.columns) :
    (col.sortable = true → ∀ d, s.sortConfig = some ⟨col.dataIndex, d⟩ →
      (step rowId (TableEvent.clickHeader col) s).sortConfig
        = some ⟨col.dataIndex, d.flip⟩)
  ∧ (col.sortable = true →
      (∀ cfg, s.sortConfig = some cfg → cfg.key ≠ col.dataIndex) →
      (step rowId (TableEvent.clickHeader col) s).sortConfig
        = some ⟨col.dataIndex, Direction.asc⟩)
  ∧ (col.sortable = false → step rowId (TableEvent.clickHeader col) s = s) := by
  refine ⟨?_, ?_, ?_⟩
  · intro hs d hcfg
    simp only [step, if_pos (And.intro hpop hmem), hs, if_true]
    simp [handleSort, hcfg]
  · intro hs hdiff
    simp only [step, if_pos (And.intro hpop hmem), hs, if_true]
    cases hc : s.sortConfig with
    | none => simp [handleSort, hc]
    | some cfg => simp [handleSort, hc, hdiff cfg hc]
  · intro hs
    simp only [step, if_pos (And.intro hpop hmem), hs]
    simp

/-- Witness for C2 at concrete inputs: clicking the active `name` column in `c1s1`
flips ascending to descending; clicking `name` on the freshly mounted `c1s0` sets
(name, ascending); clicking the non-sortable `id` column leaves the state unchanged. -/
theorem c2_header_click_transitions_witness :
    (step sampleId (TableEvent.clickHeader nameColumn) c1s1).sortConfig
      = some ⟨SField.name, Direction.asc.flip⟩
  ∧ (step sampleId (TableEvent.clickHeader nameColumn) c1s0).sortConfig
      = some ⟨SField.name, Direction.asc⟩
  ∧ step sampleId (TableEvent.clickHeader idColumn) c2s0 = c2s0 :=
  ⟨(c2_header_click_transitions sampleId c1s1 nameColumn (by decide) (by decide)).1
      rfl Direction.asc (by decide),
   (c2_header_click_transitions sampleId c1s0 nameColumn (by decide) (by decide)).2.1
      rfl (fun cfg h => nomatch h),
   (c2_header_click_transitions sampleId c2s0 idColumn (by decide) (by decide)).2.2 rfl⟩

/-- C5: the render of `DataTable` is the loading placeholder whenever the loading
flag is set, the empty placeholder when not loading and the data has zero rows, and
otherwise the populated table over the sorted data; the three checks happen in that
priority order and are mutually exclusive. -/
theorem c5_render_priority (getF : T → κ → α) (lt gt : α → α → Bool)
    (s : TableState T κ ι) :
    (s.loading = true →
      renderView getF lt gt s = TableView.loadingView "Loading data...")
  ∧ (s.loading = false → s.data = [] →
      renderView getF lt gt s = TableView.emptyView "No data available")
  ∧ (s.loading = false → s.data ≠ [] →
      renderView getF lt gt s
        = TableView.populated (sortedData getF lt gt s.data s.sortConfig)) := by
  refine ⟨?_, ?_, ?_⟩
  · intro h
    simp [renderView, h]
  · intro h hd
    simp [renderView, h, hd]
  · intro h hd
    simp [renderView, h, hd]

/-- Witness for C5 at concrete inputs: a loading table (with non-empty rows) shows the
loading placeholder, a non-loading empty table shows the empty placeholder, and the
sorted `c1s1` table shows the populated view. -/
theorem c5_render_priority_witness :
    renderView sampleGet jvalLt jvalGt
      (initState sampleRows [nameColumn] true false : TableState SampleRow SField Int)
      = TableView.loadingView "Loading data..."
  ∧ renderView sampleGet jvalLt jvalGt
      (initState [] [nameColumn] false false : TableState SampleRow SField Int)
      = TableView.emptyView "No data available"
  ∧ renderView sampleGet jvalLt jvalGt c1s1
      = TableView.populated (sortedData sampleGet jvalLt jvalGt c1s1.data c1s1.sortConfig) :=
  ⟨(c5_render_priority sampleGet jvalLt jvalGt _).1 rfl,
   (c5_render_priority sampleGet jvalLt jvalGt _).2.1 rfl rfl,
   (c5_render_priority sampleGet jvalLt jvalGt c1s1).2.2 rfl (by decide)⟩

/-- C6: with the callback provided, toggling a row removes its identifier from the
selection when present and appends it when absent, and performs exactly one
`onRowSelect` call whose argument is the current data filtered by membership of the
row identifier in the new selection. -/
theorem c6_toggle_selection_callback [DecidableEq ι] (rowId : T → ι) (data : List T)
    (sel : List ι) (id : ι) :
    (sel.contains id = true →
        (toggleRow rowId data true sel id).1 = sel.erase id)
  ∧ (sel.contains id = false →
        (toggleRow rowId data true sel id).1 = sel ++ [id])
  ∧ (toggleRow rowId data true sel id).2
      = [data.filter
          (fun row => (toggleRow rowId data true sel id).1.contains (rowId row))] := by
  refine ⟨?_, ?_, ?_⟩
  · intro h
    have hm : id ∈ sel := by simpa using h
    simp [toggleRow, hm]
  · intro h
    have hm : id ∉ sel := by simpa using h
    simp [toggleRow, hm]
  · rfl

/-- Witness for C6 at concrete inputs: toggling id 1 out of selection `[1]`, toggling
id 2 into selection `[1]`, and the single callback invocation on the sample rows. -/
theorem c6_toggle_selection_callback_witness :
    (toggleRow sampleId sampleRows true [1] 1).1 = ([1] : List Int).erase 1
  ∧ (toggleRow sampleId sampleRows true [1] 2).1 = [1] ++ [2]
  ∧ (toggleRow sampleId sampleRows true [1] 2).2
      = [sampleRows.filter
          (fun row => (toggleRow sampleId sampleRows true [1] 2).1.contains (sampleId row))] :=
  ⟨(c6_toggle_selection_callback sampleId sampleRows [1] 1).1 (by decide),
   (c6_toggle_selection_callback sampleId sampleRows [1] 2).2.1 (by decide),
   (c6_toggle_selection_callback sampleId sampleRows [1] 2).2.2⟩

/-- The props of `InputField` involved in the clear-button logic (App.tsx lines 5-20);
`hasOnChange` records whether the optional `onChange` callback was supplied, and the
purely visual props (label, placeholder, variant, size, ...) are omitted. -/
structure InputProps where
  value : Option String
  hasOnChange : Bool
  disabled : Bool
  loading : Bool
  clearable : Bool
deriving DecidableEq

/-- JS truthiness of the optional `value` string prop: `undefined` and the empty
string are falsy. -/
def strTruthy : Option String → Bool
  | none => false
  | some s => !(s == "")

/-- The render guard of the clear button, `clearable && value && !disabled && !loading`
(App.tsx line 86). -/
def clearButtonShown (p : InputProps) : Bool :=
  p.clearable && strTruthy p.value && !p.disabled && !p.loading

/-- The clear button's onClick handler (App.tsx lines 89-91): it calls
`onChange?.({ target: { value: "" } })` and touches nothing else.  The result is the
`showPassword` state after the click together with the list of `target.value` strings
passed to `onChange`, one entry per call. -/
def clearClick (p : InputProps) (showPassword : Bool) : Bool × List String :=
  (showPassword, if p.hasOnChange then [""] else [])

/-- C7: the clear control is rendered iff `clearable` is set, the value is a non-empty
string, and the field is neither disabled nor loading; activating it (with the change
callback provided) calls `onChange` exactly once with the empty-string value and
leaves the component's local state unchanged. -/
theorem c7_clear_control (p : InputProps) (sp : Bool) (hOn : p.hasOnChange = true) :
    (clearButtonShown p = true ↔
      (p.clearable = true ∧ (∃ s, p.value = some s ∧ s ≠ "")
        ∧ p.disabled = false ∧ p.loading = false))
  ∧ clearClick p sp = (sp, [""]) := by
  constructor
  · cases hv : p.value with
    | none => simp [clearButtonShown, strTruthy, hv]
    | some s =>
      simp [clearButtonShown, strTruthy, hv, and_assoc]
  · simp [clearClick, hOn]

/-- Witness for C7 at a concrete input: props with value "hi", clearable, enabled,
not loading, with the callback provided. -/
theorem c7_clear_control_witness :
    (clearButtonShown ⟨some "hi", true, false, false, true⟩ = true ↔
      ((⟨some "hi", true, false, false, true⟩ : InputProps).clearable = true
        ∧ (∃ s, (⟨some "hi", true, false, false, true⟩ : InputProps).value = some s ∧ s ≠ "")
        ∧ (⟨some "hi", true, false, false, true⟩ : InputProps).disabled = false
        ∧ (⟨some "hi", true, false, false, true⟩ : InputProps).loading = false))
  ∧ clearClick ⟨some "hi", true, false, false, true⟩ false = (false, [""]) :=
  c7_clear_control ⟨some "hi", true, false, false, true⟩ false rfl

/-- User events (header clicks and checkbox toggles) never change the `data` or
`columns` props: the handlers only call `setSortConfig` and `setSelectedRows`. -/
theorem step_preserves_props [DecidableEq κ] [DecidableEq ι] (rowId : T → ι)
    (e : TableEvent T κ ι) (s : TableState T κ ι) (h : isUserEvent e = true) :
    (step rowId e s).data = s.data ∧ (step rowId e s).columns = s.columns := by
  cases e with
  | clickHeader col =>
    simp only [step]
    split
    · split
      · exact ⟨rfl, rfl⟩
      · exact ⟨rfl, rfl⟩
    · exact ⟨rfl, rfl⟩
  | toggleRowBox id =>
    simp only [step]
    split
    · exact ⟨rfl, rfl⟩
    · exact ⟨rfl, rfl⟩
  | setData d => simp [isUserEvent] at h

/-- C9: over any sequence of sort or selection interactions (no change of the `data`
prop by the caller), the `data` and `columns` props of the table are left exactly as
given: sorting works on a copy and no handler mutates the caller's arrays. -/
theorem c9_no_mutation_of_inputs [DecidableEq κ] [DecidableEq ι] (rowId : T → ι)
    (s : TableState T κ ι) (evs : List (TableEvent T κ ι))
    (h : ∀ e ∈ evs, isUserEvent e = true) :
    (runTable rowId s evs).data = s.data ∧ (runTable rowId s evs).columns = s.columns := by
  induction evs generalizing s with
  | nil => exact ⟨rfl, rfl⟩
  | cons e evs ih =>
    have he := h e (List.mem_cons_self e evs)
    have hrest : ∀ x ∈ evs, isUserEvent x = true :=
      fun x hx => h x (List.mem_cons_of_mem e hx)
    have hstep := step_preserves_props rowId e s he
    have htail := ih (step rowId e s) hrest
    simp only [runTable, List.foldl_cons] at htail ⊢
    exact ⟨htail.1.trans hstep.1, htail.2.trans hstep.2⟩

/-- Witness for C9 at concrete inputs: a header click followed by a row toggle on the
sample table leaves the `data` and `columns` props untouched. -/
theorem c9_no_mutation_of_inputs_witness :
    (runTable sampleId (initState sampleRows [nameColumn] false true)
        [TableEvent.clickHeader nameColumn, TableEvent.toggleRowBox 1]).data
      = (initState sampleRows [nameColumn] false true :
          TableState SampleRow SField Int).data
  ∧ (runTable sampleId (initState sampleRows [nameColumn] false true)
        [TableEvent.clickHeader nameColumn, TableEvent.toggleRowBox 1]).columns
      = (initState sampleRows [nameColumn] false true :
          TableState SampleRow SField Int).columns :=
  c9_no_mutation_of_inputs sampleId (initState sampleRows [nameColumn] false true)
    [TableEvent.clickHeader nameColumn, TableEvent.toggleRowBox 1] (by decide)

/-- The selection-subset invariant of the spec: every selected identifier is the id
of some row of the current data. -/
def selectionInvariant (rowId : T → ι) (s : TableState T κ ι) : Prop :=
  ∀ i ∈ s.selectedRows, i ∈ s.data.map rowId

/-- User events preserve the selection-subset invariant: a toggle only ever removes
an identifier or adds the id of a currently rendered row. -/
theorem step_preserves_selectionInvariant [DecidableEq κ] [DecidableEq ι] (rowId : T → ι)
    (e : TableEvent T κ ι) (s : TableState T κ ι) (hu : isUserEvent e = true)
    (h : selectionInvariant rowId s) :
    selectionInvariant rowId (step rowId e s) := by
  cases e with
  | clickHeader col =>
    simp only [step]
    split
    · split
      · exact h
      · exact h
    · exact h
  | toggleRowBox id =>
    simp only [step]
    split
    · rename_i hc
      intro i hi
      simp only [toggleRow] at hi
      by_cases hmem : s.selectedRows.contains id = true
      · rw [if_pos hmem] at hi
        exact h i (List.mem_of_mem_erase hi)
      · rw [if_neg hmem] at hi
        rcases List.mem_append.mp hi with hl | hr
        · exact h i hl
        · have : i = id := List.mem_singleton.mp hr
          exact this ▸ hc.2.2
    · exact h
  | setData d => simp [isUserEvent] at hu

/-- Row used by the C4 counterexample before the data change. -/
def c4row1 : SampleRow := ⟨1, "x"⟩

/-- Row used by the C4 counterexample after the data change. -/
def c4row2 : SampleRow := ⟨2, "y"⟩

/-- Mounted selectable table holding only `c4row1`. -/
def c4s0 : TableState SampleRow SField Int := initState [c4row1] [nameColumn] false true

/-- Event sequence of the C4 counterexample: select row 1, then the caller replaces
the data with a row of id 2. -/
def c4evs : List (TableEvent SampleRow SField Int) :=
  [TableEvent.toggleRowBox 1, TableEvent.setData [c4row2]]

/-- C4 counterexample: after selecting the only row (id 1) and then changing the
`data` prop to a different row (id 2), the reachable state keeps the stale id 1 in
its selection set, which is not the id of any row of the current data — so the
subset invariant does not hold across changes of the data prop. -/
theorem c4_counterexample :
    ¬ selectionInvariant sampleId (runTable sampleId c4s0 c4evs) := by
  intro hinv
  exact absurd (hinv 1 (by decide)) (by decide)

/-- C4 as amended: from mount, as long as the caller does not change the `data` prop,
every reachable state's selection set contains only identifiers of rows of the
current data (checkbox toggles only add ids of rendered rows and removals keep the
invariant). -/
theorem c4_amended_selection_subset [DecidableEq κ] [DecidableEq ι] (rowId : T → ι)
    (data : List T) (cols : List (Column κ)) (loading selectable : Bool)
    (evs : List (TableEvent T κ ι)) (h : ∀ e ∈ evs, isUserEvent e = true) :
    selectionInvariant rowId
      (runTable rowId (initState data cols loading selectable) evs) := by
  have gen : ∀ (l : List (TableEvent T κ ι)) (s : TableState T κ ι),
      (∀ e ∈ l, isUserEvent e = true) → selectionInvariant rowId s →
      selectionInvariant rowId (runTable rowId s l) := by
    intro l
    induction l with
    | nil => exact fun s _ hs => hs
    | cons e l ih =>
      intro s hl hs
      have he := hl e (List.mem_cons_self e l)
      have hrest : ∀ x ∈ l, isUserEvent x = true :=
        fun x hx => hl x (List.mem_cons_of_mem e hx)
      have hstep : runTable rowId s (e :: l) = runTable rowId (step rowId e s) l := rfl
      rw [hstep]
      exact ih (step rowId e s) hrest
        (step_preserves_selectionInvariant rowId e s he hs)
  refine gen evs (initState data cols loading selectable) h ?_
  intro i hi
  simp [initState] at hi

/-- Witness for C4's amended statement at concrete inputs: toggling the sample rows
in and out (no data change) keeps the selection inside the current data's ids. -/
theorem c4_amended_selection_subset_witness :
    selectionInvariant sampleId
      (runTable sampleId (initState sampleRows [nameColumn] false true)
        [TableEvent.toggleRowBox 1, TableEvent.toggleRowBox 2,
         TableEvent.toggleRowBox 1]) :=
  c4_amended_selection_subset sampleId sampleRows [nameColumn] false true
    [TableEvent.toggleRowBox 1, TableEvent.toggleRowBox 2, TableEvent.toggleRowBox 1]
    (by decide)

/-- Inserting an element that fails the filter leaves the filtered list unchanged:
only the relative order of the other elements matters and insertion keeps it. -/
theorem filter_insertRow_neg (le : T → T → Bool) (p : T → Bool) (a : T)
    (ha : p a = false) :
    ∀ l : List T, (insertRow le a l).filter p = l.filter p := by
  intro l
  induction l with
  | nil => simp [insertRow, ha]
  | cons b l ih =>
    by_cases hab : le a b = true
    · simp [insertRow, hab, ha]
    · simp only [insertRow, if_neg hab, List.filter_cons, ih]

/-- Inserting an element that passes the filter and le-precedes every element passing
the filter puts it in front of all of them: the filtered list gains it as new head. -/
theorem filter_insertRow_pos (le : T → T → Bool) (p : T → Bool) (a : T)
    (ha : p a = true) (hle : ∀ b, p b = true → le a b = true) :
    ∀ l : List T, (insertRow le a l).filter p = a :: l.filter p := by
  intro l
  induction l with
  | nil => simp [insertRow, ha]
  | cons b l ih =>
    by_cases hab : le a b = true
    · simp [insertRow, hab, ha]
    · have hpb : p b = false := by
        cases hpb : p b
        · rfl
        · exact absurd (hle b hpb) hab
      simp only [insertRow, if_neg hab, List.filter_cons, hpb, ih]
      simp

/-- Stability of the stable sort, filter form: if all elements passing the filter tie
under `le` (as equal-valued rows do under the comparator), filtering the sorted list
gives exactly the filtered input. -/
theorem filter_stableSort (le : T → T → Bool) (p : T → Bool)
    (hp : ∀ a b, p a = true → p b = true → le a b = true) :
    ∀ l : List T, (stableSort le l).filter p = l.filter p := by
  intro l
  induction l with
  | nil => rfl
  | cons a l ih =>
    cases hpa : p a
    · rw [stableSort, filter_insertRow_neg le p a hpa, ih]
      simp [List.filter_cons, hpa]
    · rw [stableSort, filter_insertRow_pos le p a hpa (fun b hb => hp a b hpa hb), ih]
      simp [List.filter_cons, hpa]

/-- C3: the sort is stable: for every data array, sort field and direction, the rows
whose value at that field equals any fixed value `v` appear in the sorted output in
exactly their relative order from the input (their filtered subsequence is unchanged).
The hypotheses record that the JS `<` and `>` operators never relate a value to
itself, which is what makes equal values compare as 0. -/
theorem c3_sort_stable [DecidableEq κ] [DecidableEq α] (getF : T → κ → α)
    (lt gt : α → α → Bool) (hlt : ∀ x, lt x x = false) (hgt : ∀ x, gt x x = false)
    (data : List T) (k : κ) (dir : Direction) (v : α) :
    (sortedData getF lt gt data (some ⟨k, dir⟩)).filter (fun r => decide (getF r k = v))
      = data.filter (fun r => decide (getF r k = v)) := by
  have hp : ∀ a b : T, decide (getF a k = v) = true → decide (getF b k = v) = true →
      rowLe getF lt gt ⟨k, dir⟩ a b = true := by
    intro a b ha hb
    have ha' : getF a k = v := of_decide_eq_true ha
    have hb' : getF b k = v := of_decide_eq_true hb
    simp [rowLe, sortCompare, ha', hb', hlt v, hgt v]
  simp only [sortedData]
  exact filter_stableSort (rowLe getF lt gt ⟨k, dir⟩) (fun r => decide (getF r k = v))
    hp data

/-- Witness for C3 at concrete inputs: Boolean field values with the strict order
false-before-true; the two rows with value `true` keep their input order 1-then-3
through an ascending sort. -/
theorem c3_sort_stable_witness :
    (sortedData (fun (r : Bool × Nat) (_ : Unit) => r.1) (fun x y => !x && y)
        (fun x y => y && !x)
        [(true, 1), (false, 2), (true, 3), (false, 4)]
        (some ⟨(), Direction.asc⟩)).filter (fun r => decide (r.1 = true))
      = [(true, 1), (false, 2), (true, 3), (false, 4)].filter
          (fun r => decide (r.1 = true)) :=
  c3_sort_stable (fun (r : Bool × Nat) (_ : Unit) => r.1) (fun x y => !x && y)
    (fun x y => y && !x) (by decide) (by decide)
    [(true, 1), (false, 2), (true, 3), (false, 4)] () Direction.asc true

/-- Insertion only adds the inserted element: membership characterization. -/
theorem mem_insertRow (le : T → T → Bool) (a x : T) :
    ∀ l : List T, x ∈ insertRow le a l ↔ x = a ∨ x ∈ l := by
  intro l
  induction l with
  | nil => simp [insertRow]
  | cons b l ih =>
    by_cases hab : le a b = true
    · simp [insertRow, hab]
    · simp only [insertRow, if_neg hab, List.mem_cons, ih]
      tauto

/-- A list is a sublist of the result of inserting an element into it. -/
theorem sublist_insertRow (le : T → T → Bool) (a : T) :
    ∀ l : List T, l.Sublist (insertRow le a l) := by
  intro l
  induction l with
  | nil => simp [insertRow]
  | cons b l ih =>
    by_cases hab : le a b = true
    · simp only [insertRow, if_pos hab]
      exact List.sublist_cons_self a (b :: l)
    · simp only [insertRow, if_neg hab]
      exact List.Sublist.cons₂ b ih

/-- Inserting `a` into a list containing `b` with `le a b` puts `a` before `b`:
the insertion never walks past an element it le-precedes. -/
theorem pair_sublist_insertRow (le : T → T → Bool) (a b : T) (hab : le a b = true) :
    ∀ l : List T, b ∈ l → [a, b].Sublist (insertRow le a l) := by
  intro l
  induction l with
  | nil => intro h; cases h
  | cons c l ih =>
    intro hb
    by_cases hac : le a c = true
    · simp only [insertRow, if_pos hac]
      exact List.Sublist.cons₂ a (List.singleton_sublist.mpr hb)
    · rcases List.mem_cons.mp hb with hbc | hbl
      · exact absurd (hbc ▸ hab) hac
      · simp only [insertRow, if_neg hac]
        exact List.Sublist.cons c (ih hbl)

/-- The stable sort permutes: inserting preserves the multiset of rows. -/
theorem insertRow_perm (le : T → T → Bool) (a : T) :
    ∀ l : List T, (insertRow le a l).Perm (a :: l) := by
  intro l
  induction l with
  | nil => exact List.Perm.refl _
  | cons b l ih =>
    by_cases hab : le a b = true
    · simp [insertRow, hab]
    · simp only [insertRow, if_neg hab]
      exact (List.Perm.cons b ih).trans (List.Perm.swap a b l)

/-- The stable sort is a permutation of its input. -/
theorem stableSort_perm (le : T → T → Bool) : ∀ l : List T, (stableSort le l).Perm l := by
  intro l
  induction l with
  | nil => exact List.Perm.refl _
  | cons a l ih =>
    exact (insertRow_perm le a (stableSort le l)).trans (List.Perm.cons a ih)

/-- Membership is preserved by the stable sort. -/
theorem mem_stableSort (le : T → T → Bool) (x : T) (l : List T) :
    x ∈ stableSort le l ↔ x ∈ l :=
  (stableSort_perm le l).mem_iff

/-- Pairs already ordered by `le` keep their relative order through the stable sort:
rows that tie under the comparator are never swapped. -/
theorem pair_sublist_stableSort (le : T → T → Bool) (a b : T) (hab : le a b = true) :
    ∀ l : List T, [a, b].Sublist l → [a, b].Sublist (stableSort le l) := by
  intro l
  induction l with
  | nil => intro h; exact h
  | cons c l ih =>
    intro h
    cases h with
    | cons d h' =>
      exact (ih h').trans (sublist_insertRow le c (stableSort le l))
    | cons₂ d h' =>
      have hbmem : b ∈ stableSort le l :=
        (mem_stableSort le b l).mpr (List.singleton_sublist.mp h')
      exact pair_sublist_insertRow le a b hab (stableSort le l) hbmem

/-- C10: the comparator is total: whenever the field values of two rows are neither
less-than nor greater-than related (e.g. `NaN` against a number), the comparator
returns 0 in both directions' configurations, and such a pair of rows keeps its
relative input order through the sort. -/
theorem c10_comparator_total [DecidableEq κ] (getF : T → κ → α) (lt gt : α → α → Bool)
    (k : κ) (dir : Direction) (a b : T) (data : List T)
    (hlt : lt (getF a k) (getF b k) = false) (hgt : gt (getF a k) (getF b k) = false) :
    sortCompare lt gt dir (getF a k) (getF b k) = 0
  ∧ ([a, b].Sublist data →
      [a, b].Sublist (sortedData getF lt gt data (some ⟨k, dir⟩))) := by
  have hcmp : sortCompare lt gt dir (getF a k) (getF b k) = 0 := by
    simp [sortCompare, hlt, hgt]
  refine ⟨hcmp, ?_⟩
  intro hsub
  have hab : rowLe getF lt gt ⟨k, dir⟩ a b = true := by
    simp only [rowLe]
    exact decide_eq_true (le_of_eq hcmp)
  simpa only [sortedData] using pair_sublist_stableSort _ a b hab data hsub

/-- Shared field accessor for rows carrying an id and one raw JS field value. -/
def pairVal (r : Int × JVal) (_ : Unit) : JVal := r.2

/-- Witness for C10 at a concrete input: a row whose field value is `NaN` against a
row whose value is `5`: the comparator yields 0 and the pair keeps its input order
through an ascending sort. -/
theorem c10_comparator_total_witness :
    sortCompare jvalLt jvalGt Direction.asc JVal.nan (JVal.num 5) = 0
  ∧ [((1 : Int), JVal.nan), ((2 : Int), JVal.num 5)].Sublist
      (sortedData pairVal jvalLt jvalGt
        [((1 : Int), JVal.nan), ((2 : Int), JVal.num 5)]
        (some ⟨(), Direction.asc⟩)) :=
  (c10_comparator_total pairVal jvalLt jvalGt () Direction.asc
      ((1 : Int), JVal.nan) ((2 : Int), JVal.num 5)
      [((1 : Int), JVal.nan), ((2 : Int), JVal.num 5)]
      (by decide) (by decide)).imp id (fun f => f (List.Sublist.refl _))

/-- Inserting into a `le`-pairwise list keeps it pairwise, provided `le` is total and
transitive. -/
theorem pairwise_insertRow (le : T → T → Bool)
    (htot : ∀ a b : T, le a b = true ∨ le b a = true)
    (htrans : ∀ a b c : T, le a b = true → le b c = true → le a c = true) (a : T) :
    ∀ l : List T, l.Pairwise (fun x y => le x y = true) →
      (insertRow le a l).Pairwise (fun x y => le x y = true) := by
  intro l
  induction l with
  | nil =>
    intro _
    exact List.pairwise_singleton _ a
  | cons b l ih =>
    intro hp
    rcases List.pairwise_cons.mp hp with ⟨hbl, hl⟩
    by_cases hab : le a b = true
    · simp only [insertRow, if_pos hab]
      refine List.pairwise_cons.mpr ⟨?_, hp⟩
      intro x hx
      rcases List.mem_cons.mp hx with hxb | hxl
      · exact hxb ▸ hab
      · exact htrans a b x hab (hbl x hxl)
    · simp only [insertRow, if_neg hab]
      have hba : le b a = true := (htot a b).resolve_left hab
      refine List.pairwise_cons.mpr ⟨?_, ih hl⟩
      intro x hx
      rcases (mem_insertRow le a x l).mp hx with hxa | hxl
      · exact hxa ▸ hba
      · exact hbl x hxl

/-- The stable sort produces a `le`-pairwise list when `le` is total and transitive. -/
theorem pairwise_stableSort (le : T → T → Bool)
    (htot : ∀ a b : T, le a b = true ∨ le b a = true)
    (htrans : ∀ a b c : T, le a b = true → le b c = true → le a c = true) :
    ∀ l : List T, (stableSort le l).Pairwise (fun x y => le x y = true) := by
  intro l
  induction l with
  | nil => exact List.Pairwise.nil
  | cons a l ih => exact pairwise_insertRow le htot htrans a (stableSort le l) ih

/-- C8 counterexample: the two rows carry the pairwise-distinct field values `NaN`
and `5`, yet JS `<`/`>` relate `NaN` to nothing, so both the ascending and the
descending sort keep the input order and descending is not the reverse of
ascending. -/
theorem c8_counterexample :
    ([((1 : Int), JVal.nan), ((2 : Int), JVal.num 5)].Pairwise
      (fun a b => pairVal a () ≠ pairVal b ()))
  ∧ sortedData pairVal jvalLt jvalGt
      [((1 : Int), JVal.nan), ((2 : Int), JVal.num 5)] (some ⟨(), Direction.desc⟩)
    ≠ (sortedData pairVal jvalLt jvalGt
        [((1 : Int), JVal.nan), ((2 : Int), JVal.num 5)]
        (some ⟨(), Direction.asc⟩)).reverse := by
  constructor
  · decide
  · decide

/-- C8 as amended: descending order is the exact reverse of ascending order for data
whose field values at the sorted key are pairwise distinct, provided the comparator's
underlying `<` behaves as a strict order that relates every pair of distinct values
(as JS `<` does on a column of NaN-free numbers or of strings) and `>` is the swapped
`<` (as in JS).  The counterexample shows the distinctness of the claim alone is not
enough: `NaN` is distinct from `5` but incomparable, and the claim fails. -/
theorem c8_amended_desc_reverse_asc [DecidableEq κ] (getF : T → κ → α)
    (lt gt : α → α → Bool) (k : κ) (data : List T)
    (hgt_def : ∀ x y : α, gt x y = lt y x)
    (hasym : ∀ x y : α, lt x y = true → lt y x = false)
    (htrans : ∀ x y z : α, lt x y = true → lt y z = true → lt x z = true)
    (hconn : ∀ x y : α, x ≠ y → lt x y = true ∨ lt y x = true)
    (hdist : data.Pairwise (fun a b => getF a k ≠ getF b k)) :
    sortedData getF lt gt data (some ⟨k, Direction.desc⟩)
      = (sortedData getF lt gt data (some ⟨k, Direction.asc⟩)).reverse := by
  have hasc : ∀ a b : T, rowLe getF lt gt ⟨k, Direction.asc⟩ a b = true ↔
      lt (getF b k) (getF a k) = false := by
    intro a b
    simp only [rowLe, sortCompare, hgt_def, decide_eq_true_eq]
    by_cases h1 : lt (getF a k) (getF b k) = true
    · simp [h1, hasym _ _ h1]
    · by_cases h2 : lt (getF b k) (getF a k) = true
      · simp [h1, h2]
      · simp [h1, h2]
  have hdesc : ∀ a b : T, rowLe getF lt gt ⟨k, Direction.desc⟩ a b = true ↔
      lt (getF a k) (getF b k) = false := by
    intro a b
    simp only [rowLe, sortCompare, hgt_def, decide_eq_true_eq]
    by_cases h1 : lt (getF a k) (getF b k) = true
    · simp [h1]
    · by_cases h2 : lt (getF b k) (getF a k) = true
      · simp [h1, h2]
      · simp [h1, h2]
  have htotA : ∀ a b : T, rowLe getF lt gt ⟨k, Direction.asc⟩ a b = true
      ∨ rowLe getF lt gt ⟨k, Direction.asc⟩ b a = true := by
    intro a b
    rcases Bool.eq_false_or_eq_true (lt (getF a k) (getF b k)) with h | h
    · exact Or.inl ((hasc a b).mpr (hasym _ _ h))
    · exact Or.inr ((hasc b a).mpr h)
  have htransA : ∀ a b c : T, rowLe getF lt gt ⟨k, Direction.asc⟩ a b = true →
      rowLe getF lt gt ⟨k, Direction.asc⟩ b c = true →
      rowLe getF lt gt ⟨k, Direction.asc⟩ a c = true := by
    intro a b c h1 h2
    have h1' := (hasc a b).mp h1
    have h2' := (hasc b c).mp h2
    refine (hasc a c).mpr ?_
    by_contra hcc
    have hca : lt (getF c k) (getF a k) = true := by
      simpa using hcc
    by_cases hkk : getF c k = getF b k
    · rw [hkk] at hca
      exact absurd hca (by simp [h1'])
    · rcases hconn _ _ hkk with hc1 | hc1
      · exact absurd hc1 (by simp [h2'])
      · exact absurd (htrans _ _ _ hc1 hca) (by simp [h1'])
  have htotD : ∀ a b : T, rowLe getF lt gt ⟨k, Direction.desc⟩ a b = true
      ∨ rowLe getF lt gt ⟨k, Direction.desc⟩ b a = true := by
    intro a b
    rcases Bool.eq_false_or_eq_true (lt (getF a k) (getF b k)) with h | h
    · exact Or.inr ((hdesc b a).mpr (hasym _ _ h))
    · exact Or.inl ((hdesc a b).mpr h)
  have htransD : ∀ a b c : T, rowLe getF lt gt ⟨k, Direction.desc⟩ a b = true →
      rowLe getF lt gt ⟨k, Direction.desc⟩ b c = true →
      rowLe getF lt gt ⟨k, Direction.desc⟩ a c = true := by
    intro a b c h1 h2
    have h1' := (hdesc a b).mp h1
    have h2' := (hdesc b c).mp h2
    refine (hdesc a c).mpr ?_
    by_contra hcc
    have hac : lt (getF a k) (getF c k) = true := by
      simpa using hcc
    by_cases hkk : getF a k = getF b k
    · rw [hkk] at hac
      exact absurd hac (by simp [h2'])
    · rcases hconn _ _ hkk with hc1 | hc1
      · exact absurd hc1 (by simp [h1'])
      · exact absurd (htrans _ _ _ hc1 hac) (by simp [h2'])
  have pwA := pairwise_stableSort (rowLe getF lt gt ⟨k, Direction.asc⟩) htotA htransA data
  have pwD := pairwise_stableSort (rowLe getF lt gt ⟨k, Direction.desc⟩) htotD htransD data
  have pwNeA : (stableSort (rowLe getF lt gt ⟨k, Direction.asc⟩) data).Pairwise
      (fun a b => getF a k ≠ getF b k) :=
    ((stableSort_perm _ data).pairwise_iff (fun h => Ne.symm h)).mpr hdist
  have pwNeD : (stableSort (rowLe getF lt gt ⟨k, Direction.desc⟩) data).Pairwise
      (fun a b => getF a k ≠ getF b k) :=
    ((stableSort_perm _ data).pairwise_iff (fun h => Ne.symm h)).mpr hdist
  have pwSA : (stableSort (rowLe getF lt gt ⟨k, Direction.asc⟩) data).Pairwise
      (fun a b => lt (getF a k) (getF b k) = true) := by
    refine (pwA.and pwNeA).imp ?_
    intro a b hab
    rcases hab with ⟨hle, hne⟩
    rcases hconn _ _ hne with h1 | h1
    · exact h1
    · exact absurd h1 (by simp [(hasc a b).mp hle])
  have pwSD : (stableSort (rowLe getF lt gt ⟨k, Direction.desc⟩) data).Pairwise
      (fun a b => lt (getF b k) (getF a k) = true) := by
    refine (pwD.and pwNeD).imp ?_
    intro a b hab
    rcases hab with ⟨hle, hne⟩
    rcases hconn _ _ hne with h1 | h1
    · exact absurd h1 (by simp [(hdesc a b).mp hle])
    · exact h1
  have pwRev : ((stableSort (rowLe getF lt gt ⟨k, Direction.asc⟩) data).reverse).Pairwise
      (fun a b => lt (getF b k) (getF a k) = true) :=
    List.pairwise_reverse.mpr pwSA
  have hperm : (stableSort (rowLe getF lt gt ⟨k, Direction.desc⟩) data).Perm
      ((stableSort (rowLe getF lt gt ⟨k, Direction.asc⟩) data).reverse) :=
    (stableSort_perm _ data).trans
      ((stableSort_perm _ data).symm.trans (List.reverse_perm _).symm)
  haveI : IsAntisymm T (fun a b => lt (getF b k) (getF a k) = true) :=
    ⟨fun a b h1 h2 => absurd h2 (by simp [hasym _ _ h1])⟩
  simpa only [sortedData] using List.eq_of_perm_of_sorted hperm pwSD pwRev

/-- Witness for C8's amended statement at concrete inputs: Boolean field values with
the strict total order false-before-true and distinct values on the two rows. -/
theorem c8_amended_desc_reverse_asc_witness :
    sortedData (fun (r : Bool × Nat) (_ : Unit) => r.1) (fun x y => !x && y)
        (fun x y => !y && x) [(false, 1), (true, 2)] (some ⟨(), Direction.desc⟩)
      = (sortedData (fun (r : Bool × Nat) (_ : Unit) => r.1) (fun x y => !x && y)
          (fun x y => !y && x) [(false, 1), (true, 2)]
          (some ⟨(), Direction.asc⟩)).reverse :=
  c8_amended_desc_reverse_asc (fun (r : Bool × Nat) (_ : Unit) => r.1)
    (fun x y => !x && y) (fun x y => !y && x) () [(false, 1), (true, 2)]
    (by decide) (by decide) (by decide) (by decide) (by decide)
